import Mathlib

set_option maxRecDepth 100000

/-!
# Verification of the rlox AST generator (`src/ast_generator.py`)

The source program is a small schema compiler: `define_ast(output_file, base, types)`
opens `output_file` for writing and, for each schema line `t` in `types`,

* `spl = t.split(':')` — splits on EVERY colon; `name = spl[0].strip()`;
  the field list is `spl[1]` (text between the first and second colon);
  accessing `spl[1]` raises `IndexError` when the line has no colon;
* writes `f'{name} {{\n'` (this write happens BEFORE `spl[1]` is accessed);
* `fields = spl[1].strip().split(',')` — splits on EVERY comma;
* each field: `spl = field.strip().split(' ', maxsplit=1)`;
  `field_name = spl[0]`; `type = spl[1]` (raises `IndexError` when the
  stripped field contains no space character); writes
  `f'    {field_name.strip()}: {type.strip()},\n'`;
* writes `'},\n\n'` after the fields, `'}\n\n'` after the loop, and then the
  visitor trait text.

We embed the program over `List Char` (Python `str.strip`, `str.split(sep)`,
`str.split(' ', maxsplit=1)` and `str.lower` are modelled character by
character), with the writes accumulated in order and an exception aborting
the run but keeping everything written so far — exactly the observable file
content of the Python code, since the `with` block closes (and flushes) the
file even when the exception propagates.
-/

/-- Python whitespace for `str.strip()` (the ASCII whitespace characters). -/
def pyIsSpace (c : Char) : Bool :=
  c = ' ' || c = '\t' || c = '\n' || c = '\r' || c = '\x0b' || c = '\x0c'

/-- Python `s.strip()`: drop leading and trailing whitespace. -/
def pyStrip (l : List Char) : List Char :=
  ((l.dropWhile pyIsSpace).reverse.dropWhile pyIsSpace).reverse

/-- Python `s.split(c)` for a one-character separator: split on every
occurrence, keeping empty chunks (`''.split(c) = ['']`). -/
def splitCh (c : Char) : List Char → List (List Char)
  | [] => [[]]
  | x :: xs =>
    if x = c then [] :: splitCh c xs
    else
      match splitCh c xs with
      | [] => [[x]]
      | l :: ls => (x :: l) :: ls

/-- Python `s.split(c, maxsplit=1)`: split at the first occurrence only. -/
def split1Ch (c : Char) : List Char → List (List Char)
  | [] => [[]]
  | x :: xs =>
    if x = c then [[], xs]
    else
      match split1Ch c xs with
      | [] => [[x]]
      | l :: ls => (x :: l) :: ls

/-- Python `str.lower` on the ASCII identifiers used here. -/
def pyLower (l : List Char) : List Char :=
  l.map Char.toLower

/-- The one failure the source can raise: Python's `IndexError` from `spl[1]`.
It carries no position and no reason text. -/
inductive PyErr : Type where
  | indexError : PyErr
deriving DecidableEq

/-- The text the source writes for one parsed field `(name, type)`:
`'    {field_name}: {type},'` (without the newline; `\x7b`/`\x7d` escapes
denote literal braces elsewhere). -/
def fieldLine (f : List Char × List Char) : List Char :=
  ' ' :: ' ' :: ' ' :: ' ' :: (f.1 ++ ':' :: ' ' :: (f.2 ++ [',']))

/-- Body of the inner field loop: `spl = field.strip().split(' ', maxsplit=1)`,
then the write `f'    {spl[0].strip()}: {spl[1].strip()},\n'`; `spl[1]`
raises `IndexError` when the stripped field has no space. -/
def processField (field : List Char) : Except PyErr (List Char) :=
  match split1Ch ' ' (pyStrip field) with
  | [fn, ty] => .ok (fieldLine (pyStrip fn, pyStrip ty) ++ ['\n'])
  | _ => .error .indexError

/-- The field loop: writes accumulate left to right; an exception stops the
loop, keeping the earlier writes. -/
def processFields : List (List Char) → List Char × Option PyErr
  | [] => ([], none)
  | f :: fs =>
    match processField f with
    | .error e => ([], some e)
    | .ok w =>
      let (rest, err) := processFields fs
      (w ++ rest, err)

/-- One iteration of the outer loop, for schema line `t`:
`spl = t.split(':')`; `name = spl[0].strip()`; write `f'{name} {{\n'`;
then `fields = spl[1].strip().split(',')` (raising `IndexError`, after the
name write, when there is no colon); run the field loop; on success write
`'},\n\n'`. The returned string is everything this iteration wrote. -/
def processVariant (t : List Char) : List Char × Option PyErr :=
  let spl := splitCh ':' t
  let name := pyStrip (spl.headD [])
  let header := name ++ [' ', '\x7b', '\n']
  match spl.drop 1 with
  | [] => (header, some .indexError)
  | seg :: _ =>
    let fields := splitCh ',' (pyStrip seg)
    let (body, err) := processFields fields
    match err with
    | some e => (header ++ body, some e)
    | none => (header ++ body ++ ['\x7d', ',', '\n', '\n'], none)

/-- The outer loop over all schema lines, accumulating writes and stopping
at the first exception. -/
def processTypes : List (List Char) → List Char × Option PyErr
  | [] => ([], none)
  | t :: ts =>
    let (w, err) := processVariant t
    match err with
    | some e => (w, some e)
    | none =>
      let (rest, err2) := processTypes ts
      (w ++ rest, err2)

/-- The visitor-trait text written after the enum:
`pub trait Visitor<R, E> { fn visit_{base.lower}(&mut self, {base.lower}: &{base}) -> Result<R, E>; }`. -/
def visitorText (base : List Char) : List Char :=
  "pub trait Visitor<R, E> \x7b\n".data
    ++ "  fn visit_".data ++ pyLower base
    ++ "(&mut self, ".data ++ pyLower base
    ++ ": &".data ++ base ++ ") -> Result<R, E>;\n".data
    ++ "\x7d\n\n".data

/-- Everything `define_ast` writes (over `List Char`): the enum header, the
variants, and — only when no exception occurred — the closing brace and the
visitor trait. The returned string is the final content of the output file;
the returned error is the exception propagated to the caller, if any. -/
def defineAstCore (base : List Char) (types : List (List Char)) :
    List Char × Option PyErr :=
  let header := "pub enum ".data ++ base ++ [' ', '\x7b', '\n']
  let (body, err) := processTypes types
  match err with
  | some e => (header ++ body, some e)
  | none => (header ++ body ++ ['\x7d', '\n', '\n'] ++ visitorText base, none)

/-- `define_ast` at `String` level: the pair of (final file content,
propagated exception). -/
def define_ast (base : String) (types : List String) : String × Option PyErr :=
  let r := defineAstCore base.data (types.map String.data)
  (String.mk r.1, r.2)

/-- The file-system view of `define_ast(output_file, base, types)`: a file
system maps names to contents; the call truncates/creates `output_file` and
leaves every write made before returning (or before the exception escaped)
in it — the `with` block closes the file in both cases. -/
def define_ast_fs (fs : String → Option String) (output_file : String)
    (base : String) (types : List String) :
    (String → Option String) × Option PyErr :=
  let r := define_ast base types
  (fun g => if g = output_file then some r.1 else fs g, r.2)

/-- The tokens the source extracts from one schema line, when no exception
occurs: variant name `spl[0].strip()` and, for each comma-chunk of `spl[1]`,
the pair (`field.strip().split(' ',1)[0].strip()`, `...[1].strip()`). -/
def parseField (field : List Char) : Option (List Char × List Char) :=
  match split1Ch ' ' (pyStrip field) with
  | [fn, ty] => some (pyStrip fn, pyStrip ty)
  | _ => none

/-- `Option`-valued map, failing when any element fails. -/
def mapO (g : α → Option β) : List α → Option (List β)
  | [] => some []
  | a :: as =>
    match g a, mapO g as with
    | some b, some bs => some (b :: bs)
    | _, _ => none

/-- The structured reading of one schema line by the source's own splitting:
`t.split(':')[0].strip()` as the name, `t.split(':')[1]` (every-comma split)
as the fields. `none` exactly when the line would raise `IndexError`. -/
def parseLine (t : List Char) : Option (List Char × List (List Char × List Char)) :=
  match splitCh ':' t with
  | n :: seg :: _ =>
    match mapO parseField (splitCh ',' (pyStrip seg)) with
    | some fs => some (pyStrip n, fs)
    | none => none
  | _ => none

/-- Whether one comma-chunk survives the field split: the stripped chunk
contains a space character. -/
def wfField (f : List Char) : Bool :=
  decide (' ' ∈ pyStrip f)

/-- Whether one schema line is processed without an exception: it has a
colon, and every comma-chunk of the text between the first and second colon
has a space after stripping. -/
def wfLine (t : List Char) : Bool :=
  match splitCh ':' t with
  | _ :: seg :: _ => (splitCh ',' (pyStrip seg)).all wfField
  | _ => false

/-! ## A line-structured view of the emitted text

The emitted text is newline-terminated lines. We name the lines of one
variant block and prove below that, on success, the written text is exactly
the newline-join of those lines; the round-trip parser then works line by
line. -/

/-- Join lines, terminating each with a newline (the emitted text always
ends with `'\n'`). -/
def joinLines : List (List Char) → List Char
  | [] => []
  | l :: ls => l ++ '\n' :: joinLines ls

/-- The lines one variant block contributes: `{name} {`, one line per
field, `},`, and a blank line. -/
def variantLines (v : List Char × List (List Char × List Char)) : List (List Char) :=
  (v.1 ++ [' ', '\x7b']) :: (v.2.map fieldLine ++ [['\x7d', ','], []])

/-- Split a character list at every newline (inverse of `joinLines` up to a
trailing empty chunk). -/
def splitNL : List Char → List (List Char)
  | [] => [[]]
  | c :: cs =>
    if c = '\n' then [] :: splitNL cs
    else
      match splitNL cs with
      | [] => [[c]]
      | l :: ls => (c :: l) :: ls

/-! ## Round-trip recovery of the union declaration

The claims' "mini-grammar" reading of the emitted union declaration: drop
the `pub enum … {` line, then read variant blocks (`Name {`, indented
`field: Type,` lines, `},`, blank line) until the closing `}` line. -/

/-- Read a variant-name line `{name} {`. -/
def parseNameLine (l : List Char) : Option (List Char) :=
  match l.reverse with
  | '\x7b' :: ' ' :: rest => some rest.reverse
  | _ => none

/-- Read one emitted field line `    {name}: {type},` back into its two
tokens, splitting at the first colon. -/
def parseFieldLine (l : List Char) : Option (List Char × List Char) :=
  if l.take 4 = [' ', ' ', ' ', ' '] then
    match split1Ch ':' (l.drop 4) with
    | [fn, rest] =>
      match rest with
      | c :: rest2 =>
        if c = ' ' then
          match rest2.reverse with
          | c2 :: tyrev => if c2 = ',' then some (fn, tyrev.reverse) else none
          | [] => none
        else none
      | [] => none
    | _ => none
  else none

/-- Read field lines until the `},` terminator; return the fields and the
remaining lines. -/
def recFields : List (List Char) → Option (List (List Char × List Char) × List (List Char))
  | [] => none
  | l :: ls =>
    if l = ['\x7d', ','] then some ([], ls)
    else
      match parseFieldLine l, recFields ls with
      | some f, some (fs, rest) => some (f :: fs, rest)
      | _, _ => none

/-- Read variant blocks until the closing `}` line (fueled recursion; the
fuel only needs to exceed the number of variants). -/
def recLoop : Nat → List (List Char) → Option (List (List Char × List (List Char × List Char)))
  | 0, _ => none
  | _ + 1, [] => none
  | fuel + 1, l :: ls =>
    if l = ['\x7d'] then some []
    else
      match parseNameLine l with
      | none => none
      | some name =>
        match recFields ls with
        | none => none
        | some (fs, rest) =>
          match rest with
          | [] :: rest2 =>
            match recLoop fuel rest2 with
            | none => none
            | some vs => some ((name, fs) :: vs)
          | _ => none

/-- Parse the emitted union declaration back into its variants (names,
field names, field types), treating its syntax as a mini-grammar. -/
def recoverVariants (s : String) :
    Option (List (List Char × List (List Char × List Char))) :=
  match splitNL s.data with
  | [] => none
  | _ :: rest => recLoop rest.length rest

/-! ## The spec's reading of a schema line

The spec's grammar splits a line only at the TOP-LEVEL `:` and at
TOP-LEVEL `,` separators — separators occurring inside nested angle
brackets are part of the type text — and splits a field spec at its first
whitespace run. These definitions follow the spec's words (sections 4.1
and 8 of the spec), to be compared with `parseLine`, the code's
splitting. -/

/-- Modelled from the spec: split at the first `:` that is at angle-bracket
depth zero ("the top-level `:` that separates variant name from its field
list"). -/
def specSplit1Colon : Nat → List Char → Option (List Char × List Char)
  | _, [] => none
  | d, x :: xs =>
    if x = ':' ∧ d = 0 then some ([], xs)
    else
      let d' := if x = '<' then d + 1 else if x = '>' then d - 1 else d
      match specSplit1Colon d' xs with
      | none => none
      | some (a, b) => some (x :: a, b)

/-- Modelled from the spec: split the field list at every `,` at
angle-bracket depth zero ("`,` that separates fields at the top level"). -/
def specSplitTop (c : Char) : Nat → List Char → List (List Char)
  | _, [] => [[]]
  | d, x :: xs =>
    if x = c ∧ d = 0 then [] :: specSplitTop c 0 xs
    else
      let d' := if x = '<' then d + 1 else if x = '>' then d - 1 else d
      match specSplitTop c d' xs with
      | [] => [[x]]
      | l :: ls => (x :: l) :: ls

/-- Modelled from the spec: a field spec is `FieldName WHITESPACE TypeExpr`,
split at the first whitespace run, both tokens trimmed and non-empty. -/
def specParseField (f : List Char) : Option (List Char × List Char) :=
  let s := pyStrip f
  let fn := s.takeWhile (fun ch => !(pyIsSpace ch))
  let ty := pyStrip (s.dropWhile (fun ch => !(pyIsSpace ch)))
  if fn = [] ∨ ty = [] then none else some (fn, ty)

/-- Modelled from the spec: the variant name and field tokens of one schema
line under the spec's top-level-only splitting. -/
def specParseLine (t : List Char) :
    Option (List Char × List (List Char × List Char)) :=
  match specSplit1Colon 0 t with
  | none => none
  | some (n, rest) =>
    match mapO specParseField (specSplitTop ',' 0 (pyStrip rest)) with
    | some fs => some (pyStrip n, fs)
    | none => none

/-! ## Lemmas about the string helpers -/

theorem splitCh_ne_nil (c : Char) (s : List Char) : splitCh c s ≠ [] := by
  cases s with
  | nil => simp [splitCh]
  | cons x xs =>
    unfold splitCh
    by_cases h : x = c
    · simp [h]
    · simp only [h, if_false]
      cases splitCh c xs <;> simp

theorem splitCh_of_not_mem {c : Char} {s : List Char} (h : c ∉ s) :
    splitCh c s = [s] := by
  induction s with
  | nil => rfl
  | cons x xs ih =>
    have hx : x ≠ c := fun he => h (he ▸ List.mem_cons_self x xs)
    have hxs : c ∉ xs := fun hm => h (List.mem_cons_of_mem x hm)
    unfold splitCh
    simp only [hx, if_false, ih hxs]

theorem splitCh_append {c : Char} {a : List Char} (b : List Char) (h : c ∉ a) :
    splitCh c (a ++ c :: b) = a :: splitCh c b := by
  induction a with
  | nil => simp [splitCh]
  | cons x xs ih =>
    have hx : x ≠ c := fun he => h (he ▸ List.mem_cons_self x xs)
    have hxs : c ∉ xs := fun hm => h (List.mem_cons_of_mem x hm)
    rw [List.cons_append]
    conv_lhs => rw [splitCh.eq_def]
    simp only [hx, if_false, ih hxs]

theorem split1Ch_of_not_mem {c : Char} {s : List Char} (h : c ∉ s) :
    split1Ch c s = [s] := by
  induction s with
  | nil => rfl
  | cons x xs ih =>
    have hx : x ≠ c := fun he => h (he ▸ List.mem_cons_self x xs)
    have hxs : c ∉ xs := fun hm => h (List.mem_cons_of_mem x hm)
    unfold split1Ch
    simp only [hx, if_false, ih hxs]

theorem split1Ch_append {c : Char} {a : List Char} (b : List Char) (h : c ∉ a) :
    split1Ch c (a ++ c :: b) = [a, b] := by
  induction a with
  | nil => simp [split1Ch]
  | cons x xs ih =>
    have hx : x ≠ c := fun he => h (he ▸ List.mem_cons_self x xs)
    have hxs : c ∉ xs := fun hm => h (List.mem_cons_of_mem x hm)
    unfold split1Ch
    simp only [List.cons_append, hx, if_false, ih hxs]

/-- Shape of a first-occurrence split: either the separator is absent, or
the list splits as `a ++ c :: b` with `c ∉ a`. -/
theorem split1Ch_spec (c : Char) (s : List Char) :
    (c ∉ s ∧ split1Ch c s = [s]) ∨
      (∃ a b, c ∉ a ∧ s = a ++ c :: b ∧ split1Ch c s = [a, b]) := by
  induction s with
  | nil => exact Or.inl ⟨by simp, rfl⟩
  | cons x xs ih =>
    by_cases hx : x = c
    · refine Or.inr ⟨[], xs, by simp, by simp [hx], ?_⟩
      unfold split1Ch
      simp [hx]
    · rcases ih with ⟨hm, he⟩ | ⟨a, b, ha, hs, he⟩
      · refine Or.inl ⟨?_, ?_⟩
        · intro hmem
          rcases List.mem_cons.mp hmem with h | h
          · exact hx h.symm
          · exact hm h
        · unfold split1Ch
          simp [hx, he]
      · refine Or.inr ⟨x :: a, b, ?_, by simp [hs], ?_⟩
        · intro hmem
          rcases List.mem_cons.mp hmem with h | h
          · exact hx h.symm
          · exact ha h
        · unfold split1Ch
          simp [hx, he]

theorem mem_of_mem_splitCh {c : Char} {s l : List Char}
    (hl : l ∈ splitCh c s) {x : Char} (hx : x ∈ l) : x ∈ s ∧ x ≠ c := by
  induction s generalizing l with
  | nil =>
    simp only [splitCh, List.mem_singleton] at hl
    subst hl
    simp at hx
  | cons y ys ih =>
    unfold splitCh at hl
    by_cases hy : y = c
    · simp only [hy, if_true, List.mem_cons] at hl
      rcases hl with hl | hl
      · subst hl; simp at hx
      · rcases ih hl hx with ⟨h1, h2⟩
        exact ⟨List.mem_cons_of_mem _ h1, h2⟩
    · simp only [hy, if_false] at hl
      rcases hsp : splitCh c ys with _ | ⟨l0, ls⟩
      · exact absurd hsp (splitCh_ne_nil c ys)
      · rw [hsp] at hl
        rcases List.mem_cons.mp hl with hl | hl
        · subst hl
          rcases List.mem_cons.mp hx with hx | hx
          · subst hx
            exact ⟨List.mem_cons_self _ _, hy⟩
          · have hl0 : l0 ∈ splitCh c ys := by rw [hsp]; exact List.mem_cons_self _ _
            rcases ih hl0 hx with ⟨h1, h2⟩
            exact ⟨List.mem_cons_of_mem _ h1, h2⟩
        · have hls : l ∈ splitCh c ys := by rw [hsp]; exact List.mem_cons_of_mem _ hl
          rcases ih hls hx with ⟨h1, h2⟩
          exact ⟨List.mem_cons_of_mem _ h1, h2⟩

theorem mem_of_mem_split1Ch {c : Char} {s l : List Char}
    (hl : l ∈ split1Ch c s) {x : Char} (hx : x ∈ l) : x ∈ s := by
  rcases split1Ch_spec c s with ⟨_, he⟩ | ⟨a, b, _, hs, he⟩
  · rw [he, List.mem_singleton] at hl
    subst hl
    exact hx
  · rw [he] at hl
    rcases List.mem_cons.mp hl with h | h
    · subst h
      rw [hs]
      exact List.mem_append_left _ hx
    · rw [List.mem_singleton] at h
      subst h
      rw [hs]
      exact List.mem_append_right _ (List.mem_cons_of_mem _ hx)

theorem mem_of_mem_pyStrip {l : List Char} {x : Char} (hx : x ∈ pyStrip l) :
    x ∈ l := by
  unfold pyStrip at hx
  rw [List.mem_reverse] at hx
  have h1 := (List.dropWhile_sublist (l := (l.dropWhile pyIsSpace).reverse)
    (p := pyIsSpace)).mem hx
  rw [List.mem_reverse] at h1
  exact (List.dropWhile_sublist (l := l) (p := pyIsSpace)).mem h1

theorem dropWhile_eq_self_of_head {p : Char → Bool} {l : List Char}
    (h : ∀ c, l.head? = some c → p c = false) : l.dropWhile p = l := by
  cases l with
  | nil => rfl
  | cons x xs =>
    have := h x rfl
    simp [List.dropWhile, this]

/-- `pyStrip` leaves a list unchanged when neither end is whitespace. -/
theorem pyStrip_eq_self {l : List Char}
    (h1 : ∀ c, l.head? = some c → pyIsSpace c = false)
    (h2 : ∀ c, l.getLast? = some c → pyIsSpace c = false) :
    pyStrip l = l := by
  unfold pyStrip
  rw [dropWhile_eq_self_of_head h1]
  rw [dropWhile_eq_self_of_head (by
    intro c hc
    rw [List.head?_reverse] at hc
    exact h2 c hc)]
  exact List.reverse_reverse l

theorem pyStrip_cons_space (l : List Char) : pyStrip (' ' :: l) = pyStrip l := by
  unfold pyStrip
  simp [List.dropWhile, pyIsSpace]

/-! ## Lemmas about lines -/

theorem joinLines_append (a b : List (List Char)) :
    joinLines (a ++ b) = joinLines a ++ joinLines b := by
  induction a with
  | nil => rfl
  | cons l ls ih => simp [joinLines, ih]

theorem splitNL_line {l : List Char} (r : List Char) (h : '\n' ∉ l) :
    splitNL (l ++ '\n' :: r) = l :: splitNL r := by
  induction l with
  | nil => simp [splitNL]
  | cons x xs ih =>
    have hx : x ≠ '\n' := fun he => h (he ▸ List.mem_cons_self x xs)
    have hxs : '\n' ∉ xs := fun hm => h (List.mem_cons_of_mem x hm)
    rw [List.cons_append]
    conv_lhs => rw [splitNL.eq_def]
    simp only [hx, if_false, ih hxs]

theorem splitNL_joinLines_append {ls : List (List Char)} (r : List Char)
    (h : ∀ l ∈ ls, '\n' ∉ l) :
    splitNL (joinLines ls ++ r) = ls ++ splitNL r := by
  induction ls with
  | nil => rfl
  | cons l ls ih =>
    have hl : '\n' ∉ l := h l (List.mem_cons_self _ _)
    have hls : ∀ x ∈ ls, '\n' ∉ x := fun x hx => h x (List.mem_cons_of_mem _ hx)
    rw [joinLines, List.append_assoc, List.cons_append, splitNL_line _ hl, ih hls]
    rfl

/-! ## Emission factors through the parsed tokens -/

theorem processField_of_parse {f : List Char} {p : List Char × List Char}
    (h : parseField f = some p) :
    processField f = .ok (fieldLine p ++ ['\n']) := by
  unfold parseField at h
  unfold processField
  rcases hs : split1Ch ' ' (pyStrip f) with _ | ⟨a, _ | ⟨b, _ | _⟩⟩ <;>
    rw [hs] at h <;> simp at h
  subst h
  rfl

theorem processField_of_parse_none {f : List Char}
    (h : parseField f = none) : processField f = .error .indexError := by
  unfold parseField at h
  unfold processField
  rcases hs : split1Ch ' ' (pyStrip f) with _ | ⟨a, _ | ⟨b, _ | _⟩⟩ <;>
    rw [hs] at h <;> simp at h

theorem processFields_of_mapO {chunks : List (List Char)}
    {fs : List (List Char × List Char)}
    (h : mapO parseField chunks = some fs) :
    processFields chunks = (joinLines (fs.map fieldLine), none) := by
  induction chunks generalizing fs with
  | nil =>
    simp only [mapO, Option.some_inj] at h
    subst h
    rfl
  | cons c cs ih =>
    unfold mapO at h
    rcases hc : parseField c with _ | p <;> rw [hc] at h
    · simp at h
    · rcases hcs : mapO parseField cs with _ | ps <;> rw [hcs] at h
      · simp at h
      · simp only [Option.some_inj] at h
        subst h
        unfold processFields
        rw [processField_of_parse hc, ih hcs]
        simp [joinLines]

theorem processVariant_of_parse {t : List Char}
    {v : List Char × List (List Char × List Char)}
    (h : parseLine t = some v) :
    processVariant t = (joinLines (variantLines v), none) := by
  rcases hs : splitCh ':' t with _ | ⟨n, _ | ⟨seg, rest⟩⟩
  · exact absurd hs (splitCh_ne_nil ':' t)
  · simp only [parseLine, hs] at h
    exact Option.noConfusion h
  · rcases hm : mapO parseField (splitCh ',' (pyStrip seg)) with _ | fs <;>
      simp only [parseLine, hs, hm, Option.some_inj] at h
    · exact Option.noConfusion h
    · subst h
      simp only [processVariant, hs, List.headD, List.drop_succ_cons, List.drop_zero]
      rw [processFields_of_mapO hm]
      simp [variantLines, joinLines, joinLines_append]

theorem processTypes_of_mapO {ts : List (List Char)}
    {vs : List (List Char × List (List Char × List Char))}
    (h : mapO parseLine ts = some vs) :
    processTypes ts = (joinLines (vs.map variantLines).flatten, none) := by
  induction ts generalizing vs with
  | nil =>
    simp only [mapO, Option.some_inj] at h
    subst h
    rfl
  | cons t ts ih =>
    unfold mapO at h
    rcases ht : parseLine t with _ | v <;> rw [ht] at h
    · simp at h
    · rcases hts : mapO parseLine ts with _ | ws <;> rw [hts] at h
      · simp at h
      · simp only [Option.some_inj] at h
        subst h
        unfold processTypes
        rw [processVariant_of_parse ht, ih hts]
        simp [joinLines_append]

/-- On fully well-formed input the written content is the newline-join of
the enum lines followed by the visitor text. -/
theorem defineAstCore_of_mapO {base : List Char} {ts : List (List Char)}
    {vs : List (List Char × List (List Char × List Char))}
    (h : mapO parseLine ts = some vs) :
    defineAstCore base ts =
      (joinLines (("pub enum ".data ++ base ++ [' ', '\x7b']) ::
          ((vs.map variantLines).flatten ++ [['\x7d'], []])) ++ visitorText base,
        none) := by
  unfold defineAstCore
  rw [processTypes_of_mapO h]
  simp [joinLines, joinLines_append]

/-! ## The round-trip parser inverts the emission -/

theorem parseNameLine_emit (n : List Char) :
    parseNameLine (n ++ [' ', '\x7b']) = some n := by
  unfold parseNameLine
  rw [List.reverse_append]
  simp

theorem parseFieldLine_emit {f : List Char × List Char} (h : ':' ∉ f.1) :
    parseFieldLine (fieldLine f) = some f := by
  unfold parseFieldLine fieldLine
  simp only [List.take, List.drop, if_pos rfl]
  rw [split1Ch_append (' ' :: (f.2 ++ [','])) h]
  simp

theorem fieldLine_ne_close (f : List Char × List Char) :
    fieldLine f ≠ ['\x7d', ','] := by
  unfold fieldLine
  intro h
  have := List.head_eq_of_cons_eq h
  simp at this

theorem recFields_emit {fs : List (List Char × List Char)}
    (rest : List (List Char)) (h : ∀ f ∈ fs, ':' ∉ f.1) :
    recFields (fs.map fieldLine ++ ['\x7d', ','] :: rest) = some (fs, rest) := by
  induction fs with
  | nil =>
    unfold recFields
    simp
  | cons f fs ih =>
    have hf : ':' ∉ f.1 := h f (List.mem_cons_self _ _)
    have hfs : ∀ g ∈ fs, ':' ∉ g.1 := fun g hg => h g (List.mem_cons_of_mem _ hg)
    rw [List.map_cons, List.cons_append]
    unfold recFields
    simp only [fieldLine_ne_close f, if_false]
    rw [parseFieldLine_emit hf, ih hfs]

theorem nameLine_ne_close (n : List Char) : n ++ [' ', '\x7b'] ≠ ['\x7d'] := by
  intro h
  have := congrArg List.length h
  simp at this

theorem recLoop_emit {vs : List (List Char × List (List Char × List Char))}
    {fuel : Nat} (junk : List (List Char)) (hfuel : vs.length < fuel)
    (h : ∀ v ∈ vs, ∀ f ∈ v.2, ':' ∉ f.1) :
    recLoop fuel ((vs.map variantLines).flatten ++ ['\x7d'] :: junk) = some vs := by
  induction vs generalizing fuel with
  | nil =>
    rcases fuel with _ | fuel
    · omega
    · simp only [List.map_nil, List.flatten_nil, List.nil_append]
      unfold recLoop
      simp
  | cons v vs ih =>
    rcases fuel with _ | fuel
    · omega
    have hv : ∀ f ∈ v.2, ':' ∉ f.1 := h v (List.mem_cons_self _ _)
    have hvs : ∀ w ∈ vs, ∀ f ∈ w.2, ':' ∉ f.1 :=
      fun w hw => h w (List.mem_cons_of_mem _ hw)
    rw [List.map_cons, List.flatten_cons, variantLines, List.cons_append,
      List.append_assoc]
    simp only [recLoop]
    rw [if_neg (nameLine_ne_close v.1)]
    rw [parseNameLine_emit]
    simp only [List.append_eq, List.append_assoc, List.cons_append, List.nil_append]
    rw [recFields_emit ([] :: ((vs.map variantLines).flatten ++ ['\x7d'] :: junk)) hv]
    simp only []
    rw [ih (Nat.lt_of_succ_lt_succ hfuel) hvs]

/-! ## Where the parsed tokens' characters come from -/

theorem mapO_mem {g : α → Option β} {l : List α} {r : List β}
    (h : mapO g l = some r) {y : β} (hy : y ∈ r) : ∃ x ∈ l, g x = some y := by
  induction l generalizing r with
  | nil =>
    simp only [mapO, Option.some_inj] at h
    subst h
    simp at hy
  | cons a as ih =>
    unfold mapO at h
    rcases ha : g a with _ | b <;> rw [ha] at h
    · simp at h
    · rcases has : mapO g as with _ | bs <;> rw [has] at h
      · simp at h
      · simp only [Option.some_inj] at h
        subst h
        rcases List.mem_cons.mp hy with hy | hy
        · exact ⟨a, List.mem_cons_self _ _, hy ▸ ha⟩
        · rcases ih has hy with ⟨x, hx, hgx⟩
          exact ⟨x, List.mem_cons_of_mem _ hx, hgx⟩

theorem parseField_tokens {chunk : List Char} {p : List Char × List Char}
    (h : parseField chunk = some p) :
    (∀ c ∈ p.1, c ∈ chunk) ∧ (∀ c ∈ p.2, c ∈ chunk) := by
  unfold parseField at h
  rcases hs : split1Ch ' ' (pyStrip chunk) with _ | ⟨a, _ | ⟨b, _ | _⟩⟩ <;>
    rw [hs] at h
  · exact Option.noConfusion h
  · exact Option.noConfusion h
  case cons.cons.cons => exact Option.noConfusion h
  simp only [Option.some_inj] at h
  subst h
  constructor
  · intro c hc
    have ha : a ∈ split1Ch ' ' (pyStrip chunk) := by rw [hs]; simp
    exact mem_of_mem_pyStrip (mem_of_mem_split1Ch ha (mem_of_mem_pyStrip hc))
  · intro c hc
    have hb : b ∈ split1Ch ' ' (pyStrip chunk) := by rw [hs]; simp
    exact mem_of_mem_pyStrip (mem_of_mem_split1Ch hb (mem_of_mem_pyStrip hc))

/-- Every character of every token the source extracts occurs in the input
line, and field-name and field-type tokens contain no colon (they come from
the text between the first and second colon). -/
theorem parseLine_tokens {t : List Char}
    {v : List Char × List (List Char × List Char)}
    (h : parseLine t = some v) :
    (∀ c ∈ v.1, c ∈ t) ∧
      ∀ f ∈ v.2, (∀ c ∈ f.1, c ∈ t ∧ c ≠ ':') ∧ (∀ c ∈ f.2, c ∈ t ∧ c ≠ ':') := by
  rcases hs : splitCh ':' t with _ | ⟨n, _ | ⟨seg, rest⟩⟩
  · exact absurd hs (splitCh_ne_nil ':' t)
  · simp only [parseLine, hs] at h
    exact Option.noConfusion h
  · rcases hm : mapO parseField (splitCh ',' (pyStrip seg)) with _ | fs <;>
      simp only [parseLine, hs, hm, Option.some_inj] at h
    · exact Option.noConfusion h
    subst h
    have hn : n ∈ splitCh ':' t := by rw [hs]; simp
    have hseg : seg ∈ splitCh ':' t := by rw [hs]; simp
    constructor
    · intro c hc
      exact (mem_of_mem_splitCh hn (mem_of_mem_pyStrip hc)).1
    · intro f hf
      rcases mapO_mem hm hf with ⟨chunk, hchunk, hpf⟩
      have hchunk_src : ∀ c ∈ chunk, c ∈ t ∧ c ≠ ':' := by
        intro c hc
        have hcseg : c ∈ seg :=
          mem_of_mem_pyStrip (mem_of_mem_splitCh hchunk hc).1
        exact mem_of_mem_splitCh hseg hcseg
      rcases parseField_tokens hpf with ⟨h1, h2⟩
      exact ⟨fun c hc => hchunk_src c (h1 c hc), fun c hc => hchunk_src c (h2 c hc)⟩

/-! ## Characterizing exactly when the exception is raised -/

/-- The first-occurrence split yields two pieces exactly when the separator
occurs. -/
theorem split1Ch_pair_iff (c : Char) (l : List Char) :
    (∃ a b, split1Ch c l = [a, b]) ↔ c ∈ l := by
  rcases split1Ch_spec c l with ⟨hm, he⟩ | ⟨a, b, _, hs, he⟩
  · constructor
    · rintro ⟨a, b, hab⟩
      rw [he] at hab
      simp at hab
    · intro hc
      exact absurd hc hm
  · constructor
    · intro _
      rw [hs]
      exact List.mem_append_right _ (List.mem_cons_self _ _)
    · intro _
      exact ⟨a, b, he⟩

theorem processField_ok_iff (f : List Char) :
    (∃ w, processField f = .ok w) ↔ wfField f = true := by
  unfold processField wfField
  rw [decide_eq_true_iff]
  rw [← split1Ch_pair_iff ' ' (pyStrip f)]
  constructor
  · rintro ⟨w, hw⟩
    rcases hs : split1Ch ' ' (pyStrip f) with _ | ⟨a, _ | ⟨b, _ | _⟩⟩ <;>
        rw [hs] at hw
    · exact Except.noConfusion hw
    · exact Except.noConfusion hw
    · exact ⟨a, b, rfl⟩
    · exact Except.noConfusion hw
  · rintro ⟨a, b, hab⟩
    rw [hab]
    exact ⟨_, rfl⟩

theorem processFields_err_iff (fs : List (List Char)) :
    (processFields fs).2 = none ↔ fs.all wfField = true := by
  induction fs with
  | nil => simp [processFields]
  | cons f fs ih =>
    unfold processFields
    rcases hf : processField f with e | w
    · have : ¬ wfField f = true := by
        intro hwf
        rcases (processField_ok_iff f).mpr hwf with ⟨w, hw⟩
        rw [hf] at hw
        exact Except.noConfusion hw
      simp [this]
    · have : wfField f = true := by
        apply (processField_ok_iff f).mp
        exact ⟨w, hf⟩
      simp [this, ih]

theorem processVariant_err_iff (t : List Char) :
    (processVariant t).2 = none ↔ wfLine t = true := by
  unfold processVariant wfLine
  rcases hs : splitCh ':' t with _ | ⟨n, _ | ⟨seg, rest⟩⟩
  · exact absurd hs (splitCh_ne_nil ':' t)
  · simp
  · simp only [List.headD, List.drop_succ_cons, List.drop_zero]
    rcases hp : processFields (splitCh ',' (pyStrip seg)) with ⟨body, err⟩
    have := processFields_err_iff (splitCh ',' (pyStrip seg))
    rw [hp] at this
    rcases err with _ | e
    · simpa using this
    · simp only
      constructor
      · intro hcontra
        exact Option.noConfusion hcontra
      · intro hall
        rw [← this] at hall
        exact absurd hall (by simp)

theorem processTypes_err_iff (ts : List (List Char)) :
    (processTypes ts).2 = none ↔ ts.all wfLine = true := by
  induction ts with
  | nil => simp [processTypes]
  | cons t ts ih =>
    unfold processTypes
    rcases hv : processVariant t with ⟨w, err⟩
    have hwl := processVariant_err_iff t
    rw [hv] at hwl
    rcases err with _ | e
    · rcases hp : processTypes ts with ⟨rest, err2⟩
      rw [hp] at ih
      simp only at ih ⊢
      simp [ih, ← hwl]
    · simp only
      constructor
      · intro hcontra
        exact Option.noConfusion hcontra
      · intro hall
        simp only [List.all_cons, Bool.and_eq_true] at hall
        rw [← hwl] at hall
        exact absurd hall.1 (by simp)

/-! ## Structural lemmas for error propagation and congruence -/

/-- When a prefix of the schema lines processes cleanly, processing the
whole list is the prefix's writes followed by the rest's. -/
theorem processTypes_append {a : List (List Char)} {s : List Char}
    (b : List (List Char)) (h : processTypes a = (s, none)) :
    processTypes (a ++ b) = (s ++ (processTypes b).1, (processTypes b).2) := by
  induction a generalizing s with
  | nil =>
    simp only [processTypes, Prod.mk.injEq] at h
    simp [← h.1]
  | cons t ts ih =>
    unfold processTypes at h
    rcases hv : processVariant t with ⟨w, err⟩
    rw [hv] at h
    rcases err with _ | e
    · rcases hp : processTypes ts with ⟨rest, err2⟩
      rw [hp] at h
      simp only [Prod.mk.injEq] at h
      rcases err2 with _ | e2
      · rw [List.cons_append]
        simp only [processTypes, hv]
        rw [ih (s := rest) (by rw [hp])]
        simp [← h.1, List.append_assoc]
      · exact absurd h.2 (by simp)
    · simp only [Prod.mk.injEq] at h
      exact absurd h.2 (by simp)

/-- Processing a list of schema lines only looks at each line through
`processVariant`. -/
theorem processTypes_congr {x y : List Char}
    (pre post : List (List Char)) (h : processVariant x = processVariant y) :
    processTypes (pre ++ x :: post) = processTypes (pre ++ y :: post) := by
  induction pre with
  | nil =>
    simp only [List.nil_append]
    unfold processTypes
    rw [h]
  | cons t ts ih =>
    simp only [List.cons_append]
    unfold processTypes
    rw [ih]

/-! ## Last helpers for the round-trip theorem -/

theorem data_mk (l : List Char) : (String.mk l).data = l := rfl

theorem mem_of_head?_eq {l : List Char} {a : Char} (h : l.head? = some a) :
    a ∈ l := by
  cases l with
  | nil => exact Option.noConfusion h
  | cons x xs =>
    simp only [List.head?, Option.some_inj] at h
    exact h ▸ List.mem_cons_self _ _

theorem mem_of_getLast?_eq {l : List Char} {a : Char} (h : l.getLast? = some a) :
    a ∈ l := by
  rcases List.mem_getLast?_eq_getLast (x := a) (l := l) h with ⟨hne, rfl⟩
  exact List.getLast_mem hne

/-- `pyStrip` is the identity on a list with no whitespace at all. -/
theorem pyStrip_of_all_nonspace {l : List Char}
    (h : ∀ c ∈ l, pyIsSpace c = false) : pyStrip l = l :=
  pyStrip_eq_self (fun c hc => h c (mem_of_head?_eq hc))
    (fun c hc => h c (mem_of_getLast?_eq hc))

theorem variantLines_newline_free
    {v : List Char × List (List Char × List Char)} (hn : '\n' ∉ v.1)
    (hf : ∀ f ∈ v.2, '\n' ∉ f.1 ∧ '\n' ∉ f.2) :
    ∀ l ∈ variantLines v, '\n' ∉ l := by
  intro l hl
  unfold variantLines at hl
  simp only [List.mem_cons, List.mem_append, List.mem_map, List.not_mem_nil,
    or_false] at hl
  rcases hl with rfl | ⟨f, hfmem, rfl⟩ | rfl | rfl
  · intro hc
    simp only [List.mem_append, List.mem_cons, List.not_mem_nil, or_false] at hc
    rcases hc with h | h | h
    · exact hn h
    · exact absurd h (by decide)
    · exact absurd h (by decide)
  · intro hc
    unfold fieldLine at hc
    simp only [List.mem_cons, List.mem_append, List.not_mem_nil, or_false] at hc
    rcases hc with h | h | h | h | h | h | h | h | h
    · exact absurd h (by decide)
    · exact absurd h (by decide)
    · exact absurd h (by decide)
    · exact absurd h (by decide)
    · exact (hf f hfmem).1 h
    · exact absurd h (by decide)
    · exact absurd h (by decide)
    · exact (hf f hfmem).2 h
    · exact absurd h (by decide)
  · decide
  · decide

theorem le_length_flatten (vs : List (List Char × List (List Char × List Char))) :
    vs.length ≤ ((vs.map variantLines).flatten).length := by
  induction vs with
  | nil => simp
  | cons v vs ih =>
    rw [List.map_cons, List.flatten_cons, List.length_append, List.length_cons,
      variantLines]
    simp only [List.length_cons]
    omega

/-! ## The claims -/

/-- Claim C5 (confirmed). With `baseName "Expr"` and the two worked-example
schema lines, `define_ast` raises nothing and emits exactly the union
`Expr` with tags `Binary` (fields `left: Box<Expr>`, `right: Box<Expr>`,
`operator: Token`) and `Literal` (field `value: String`), in that order,
followed by the `Visitor<R, E>` trait whose one method `visit_expr` takes
`&Expr` and returns `Result<R, E>`; the round-trip reading of the union
declaration confirms the two tags and their fields in order. -/
theorem c5_worked_example :
    define_ast "Expr"
        ["Binary: left Box<Expr>, right Box<Expr>, operator Token",
         "Literal: value String"]
      = ("pub enum Expr \x7b\nBinary \x7b\n    left: Box<Expr>,\n    right: Box<Expr>,\n    operator: Token,\n\x7d,\n\nLiteral \x7b\n    value: String,\n\x7d,\n\n\x7d\n\npub trait Visitor<R, E> \x7b\n  fn visit_expr(&mut self, expr: &Expr) -> Result<R, E>;\n\x7d\n\n",
         none)
    ∧ recoverVariants (define_ast "Expr"
        ["Binary: left Box<Expr>, right Box<Expr>, operator Token",
         "Literal: value String"]).1
      = some [("Binary".data,
                [("left".data, "Box<Expr>".data), ("right".data, "Box<Expr>".data),
                 ("operator".data, "Token".data)]),
              ("Literal".data, [("value".data, "String".data)])] := by
  constructor
  · decide
  · decide

/-- Claim C8 (confirmed). Emission is deterministic and depends on nothing
but the arguments: two runs of `define_ast` against any two file systems
and any two output paths write byte-identical content and finish with the
same outcome. -/
theorem c8_deterministic (fs1 fs2 : String → Option String)
    (file1 file2 base : String) (types : List String) :
    (define_ast_fs fs1 file1 base types).1 file1
        = (define_ast_fs fs2 file2 base types).1 file2
    ∧ (define_ast_fs fs1 file1 base types).2
        = (define_ast_fs fs2 file2 base types).2 := by
  constructor
  · simp [define_ast_fs]
  · rfl

/-- Claim C9 (confirmed). On an empty schema-line list `define_ast`
succeeds and writes the union declaration for the base name with zero
variants (`pub enum {base} {` immediately followed by `}`), then the usual
visitor-trait declaration. -/
theorem c9_empty_schema (base : String) :
    define_ast base []
      = (String.mk ("pub enum ".data ++ base.data ++ [' ', '\x7b', '\n']
          ++ ['\x7d', '\n', '\n'] ++ visitorText base.data), none) := by
  unfold define_ast defineAstCore processTypes
  simp [List.append_assoc]

/-- Claim C2 counterexample. The schema line `"Foo: a\tInt"` is well formed
in the claim's sense — it has a `:` separator and its one field spec has
whitespace (a tab) after the field name — yet the code raises an exception
on it: the field split uses the space character only (`split(' ', 1)`),
not general whitespace, so the claim's "on all well-formed inputs no error
is raised" is false. The error is also a bare `IndexError`, not a
`MalformedSchema` condition carrying a line index and a reason. -/
theorem c2_counterexample :
    (define_ast "Expr" ["Foo: a\tInt"]).2 = some PyErr.indexError := by
  decide

/-- Claim C2 (corrected). `define_ast` finishes without an exception exactly
when every schema line has a colon and, in the text between the first and
second colon, every chunk of the every-comma split contains a space
character after stripping; otherwise the run fails with Python's bare
`IndexError` (no line index, no reason). In particular a field whose name
and type are separated by non-space whitespace (tab), or a type text whose
inner comma leaves a chunk without a space, raises the error even though
the claim counts such lines as well formed. -/
theorem c2_amended (base : String) (types : List String) :
    (define_ast base types).2 = none
      ↔ types.all (fun t => wfLine t.data) = true := by
  have hmap : ∀ ts : List String,
      (ts.map String.data).all wfLine = ts.all (fun t => wfLine t.data) := by
    intro ts
    induction ts with
    | nil => rfl
    | cons t ts ih => simp only [List.map_cons, List.all_cons, ih]
  have hiff := processTypes_err_iff (types.map String.data)
  rw [hmap types] at hiff
  simp only [define_ast]
  unfold defineAstCore
  rcases hp : processTypes (types.map String.data) with ⟨body, err⟩
  rw [hp] at hiff
  rcases err with _ | e
  · simpa using hiff
  · simpa using hiff

/-- Claim C3 counterexample. Run against an empty file system, the call
writes its emitted text into the output file: the file named by
`output_file` changes from absent to present, so "performs no I/O and does
not itself write the text to any file" is false — `define_ast` opens the
file itself (`with open(output_file, 'w')`) and writes into it. -/
theorem c3_counterexample :
    (define_ast_fs (fun _ => none) "expr.rs" "Expr"
        ["Literal: value String"]).1 "expr.rs"
      ≠ (fun _ : String => none) "expr.rs" := by
  decide

/-- Claim C3 (corrected). The compile step is deterministic in its text,
but it performs the write itself: it stores the emitted text (or the
partial text written before an exception) in the file named by its
`output_file` argument, leaves every other file untouched, and returns
nothing — the write is the function's own side effect, not the caller's. -/
theorem c3_amended (fs : String → Option String) (file base : String)
    (types : List String) :
    (define_ast_fs fs file base types).1 file = some (define_ast base types).1
    ∧ (∀ g, g ≠ file → (define_ast_fs fs file base types).1 g = fs g)
    ∧ (define_ast_fs fs file base types).2 = (define_ast base types).2 := by
  refine ⟨by simp [define_ast_fs], fun g hg => ?_, rfl⟩
  simp [define_ast_fs, hg]

/-- Witness for C3 (corrected): a file other than the output file is
untouched by a concrete call. -/
theorem c3_amended_witness :
    (define_ast_fs (fun _ => none) "expr.rs" "Expr"
        ["Literal: value String"]).1 "stmt.rs" = (fun _ : String => none) "stmt.rs" :=
  (c3_amended (fun _ => none) "expr.rs" "Expr" ["Literal: value String"]).2.1
    "stmt.rs" (by decide)

/-- Claim C4 counterexample. With lines `["Good: a Int", "Bad"]` the second
line has no colon, the call fails — and the output file nevertheless holds
the fragment written before the exception: the enum header, the whole
`Good` variant, and even the malformed line's `Bad {` header (the name is
written before `spl[1]` is accessed). "No fragment of the emitted source is
produced" is false. -/
theorem c4_counterexample :
    (define_ast "E" ["Good: a Int", "Bad"]).2 = some PyErr.indexError
    ∧ (define_ast "E" ["Good: a Int", "Bad"]).1
        = "pub enum E \x7b\nGood \x7b\n    a: Int,\n\x7d,\n\nBad \x7b\n"
    ∧ (define_ast_fs (fun _ => none) "out.rs" "E" ["Good: a Int", "Bad"]).1 "out.rs"
        ≠ none := by
  refine ⟨by decide, by decide, by decide⟩

/-- Claim C4 (corrected). A malformed line does abort the compile
immediately — no later line is processed — but the output is not atomic:
the file keeps the enum header, the full output of every line before the
malformed one, and the malformed line's own partial write, and the
exception propagates with that fragment already written. -/
theorem c4_amended (base : String) (pre : List String) (t : String)
    (post : List String) (s pt : List Char) (e : PyErr)
    (h1 : processTypes (pre.map String.data) = (s, none))
    (h2 : processVariant t.data = (pt, some e)) :
    define_ast base (pre ++ t :: post)
      = (String.mk ("pub enum ".data ++ base.data ++ [' ', '\x7b', '\n']
          ++ s ++ pt), some e) := by
  have h3 : processTypes (t.data :: post.map String.data) = (pt, some e) := by
    unfold processTypes
    rw [h2]
  simp only [define_ast]
  unfold defineAstCore
  rw [List.map_append, List.map_cons, processTypes_append _ h1, h3]
  simp [List.append_assoc]

/-- Witness for C4 (corrected): concrete instance with one good line, one
bad line, and a line after the bad one that never reaches the output. -/
theorem c4_amended_witness :
    define_ast "E" (["Good: a Int"] ++ "Bad" :: ["Never: x Y"])
      = (String.mk ("pub enum ".data ++ "E".data ++ [' ', '\x7b', '\n']
          ++ "Good \x7b\n    a: Int,\n\x7d,\n\n".data ++ "Bad \x7b\n".data),
         some PyErr.indexError) :=
  c4_amended "E" ["Good: a Int"] "Bad" ["Never: x Y"]
    "Good \x7b\n    a: Int,\n\x7d,\n\n".data "Bad \x7b\n".data
    PyErr.indexError (by decide) (by decide)

/-- Claim C10 (confirmed). A schema line with more than one colon is
processed using only the text strictly between its first and second colon
as the field list: everything after the second colon is discarded, and the
whole compile output is the same as if the line had ended before the
second colon — wherever the line sits in the schema list. -/
theorem c10_second_colon (base : String) (pre post : List String)
    (a b c : String) (ha : ':' ∉ a.data) (hb : ':' ∉ b.data) :
    define_ast base (pre ++ (a ++ ":" ++ b ++ ":" ++ c) :: post)
      = define_ast base (pre ++ (a ++ ":" ++ b) :: post) := by
  have hd1 : (a ++ ":" ++ b ++ ":" ++ c).data
      = a.data ++ ':' :: (b.data ++ ':' :: c.data) := by
    simp [String.data_append, List.append_assoc]
  have hd2 : (a ++ ":" ++ b).data = a.data ++ ':' :: b.data := by
    simp [String.data_append, List.append_assoc]
  have hs1 : splitCh ':' (a ++ ":" ++ b ++ ":" ++ c).data
      = a.data :: b.data :: splitCh ':' c.data := by
    rw [hd1, splitCh_append _ ha, splitCh_append _ hb]
  have hs2 : splitCh ':' (a ++ ":" ++ b).data = a.data :: [b.data] := by
    rw [hd2, splitCh_append _ ha, splitCh_of_not_mem hb]
  have hv : processVariant (a ++ ":" ++ b ++ ":" ++ c).data
      = processVariant (a ++ ":" ++ b).data := by
    unfold processVariant
    rw [hs1, hs2]
    simp only [List.headD, List.drop_succ_cons, List.drop_zero]
  simp only [define_ast]
  rw [List.map_append, List.map_cons, List.map_append, List.map_cons]
  unfold defineAstCore
  rw [processTypes_congr _ _ hv]

/-- Witness for C10: a concrete line whose text after the second colon
(itself containing yet another colon) changes nothing in the output. -/
theorem c10_second_colon_witness :
    define_ast "E" ([] ++ ("Foo" ++ ":" ++ " x Int" ++ ":" ++ " junk: more") :: [])
      = define_ast "E" ([] ++ ("Foo" ++ ":" ++ " x Int") :: []) :=
  c10_second_colon "E" [] [] "Foo" " x Int" " junk: more" (by decide) (by decide)

/-- Claim C7 (confirmed). Every token is stripped before emission, so the
emitted text factors through the parsed tokens: two schema-line lists whose
lines parse to the same (trimmed) tokens — in particular lists differing
only in whitespace around tokens — compile to byte-identical output. -/
theorem c7_whitespace (base : String) (ts1 ts2 : List String)
    (h : ts1.map (fun t => parseLine t.data) = ts2.map (fun t => parseLine t.data))
    (hok : ∀ t ∈ ts1, (parseLine t.data).isSome = true) :
    define_ast base ts1 = define_ast base ts2 := by
  suffices hp : processTypes (ts1.map String.data) = processTypes (ts2.map String.data) by
    simp only [define_ast]
    unfold defineAstCore
    rw [hp]
  induction ts1 generalizing ts2 with
  | nil =>
    cases ts2 with
    | nil => rfl
    | cons u us => simp at h
  | cons t ts ih =>
    cases ts2 with
    | nil => simp at h
    | cons u us =>
      simp only [List.map_cons, List.cons.injEq] at h
      have hsome := hok t (List.mem_cons_self _ _)
      rcases hv : parseLine t.data with _ | v
      · rw [hv] at hsome
        simp at hsome
      have hu : parseLine u.data = some v := by rw [← h.1, hv]
      simp only [List.map_cons]
      unfold processTypes
      rw [processVariant_of_parse hv, processVariant_of_parse hu]
      rw [ih us h.2 (fun x hx => hok x (List.mem_cons_of_mem _ hx))]

/-- Witness for C7: the spec's concrete pair — `"Foo:  a   Int ,  b  Bool"`
and `"Foo: a Int, b Bool"` — parses to the same tokens, hence produces
byte-identical emitted output. -/
theorem c7_whitespace_witness :
    define_ast "X" ["Foo:  a   Int ,  b  Bool"]
      = define_ast "X" ["Foo: a Int, b Bool"] :=
  c7_whitespace "X" ["Foo:  a   Int ,  b  Bool"] ["Foo: a Int, b Bool"]
    (by decide) (by decide)

/-- Claim C1 counterexample. In `"Foo: m Map<A, Cool B>"` the comma sits
inside angle brackets, so under the claim (and the spec's top-level-only
splitting, `specParseLine`) the line has the single field
`m : Map<A, Cool B>` — but the code splits the field list on EVERY comma
and yields two fields, `m : Map<A` and `Cool : B>`: a comma inside the
type text IS treated as a schema delimiter, and the type is not copied
verbatim. (A colon inside the type text is likewise a delimiter: it ends
the field list, which is `split(':')[1]`.) -/
theorem c1_counterexample :
    parseLine "Foo: m Map<A, Cool B>".data
        = some ("Foo".data, [("m".data, "Map<A".data), ("Cool".data, "B>".data)])
    ∧ specParseLine "Foo: m Map<A, Cool B>".data
        = some ("Foo".data, [("m".data, "Map<A, Cool B>".data)]) := by
  refine ⟨by decide, by decide⟩

/-- Claim C1 (corrected). For a field spec whose type text survives the
code's splitting — it contains no `,` and no `:` — the split happens at the
first space character of the stripped field spec: the field name is the
text before that space and the type expression is everything after it,
trimmed and copied into the output verbatim, nested angle brackets and all
(so `"arguments Vec<Box<Expr>>"` gives name `arguments` and type exactly
`Vec<Box<Expr>>`). Commas and colons, however, remain delimiters wherever
they occur, and the name/type boundary is the first space character, not
the first whitespace. -/
theorem c1_amended (a fn ty : String) (ha : ':' ∉ a.data)
    (hfn0 : fn.data ≠ [])
    (hfn1 : ∀ c ∈ fn.data, pyIsSpace c = false ∧ c ≠ ':' ∧ c ≠ ',')
    (hty0 : ty.data ≠ []) (htyc : ':' ∉ ty.data) (htyc2 : ',' ∉ ty.data)
    (htyh : ∀ c, ty.data.head? = some c → pyIsSpace c = false)
    (htyl : ∀ c, ty.data.getLast? = some c → pyIsSpace c = false) :
    parseLine (a ++ ": " ++ fn ++ " " ++ ty).data
      = some (pyStrip a.data, [(fn.data, ty.data)])
    ∧ processVariant (a ++ ": " ++ fn ++ " " ++ ty).data
      = (pyStrip a.data ++ [' ', '\x7b', '\n']
          ++ (fieldLine (fn.data, ty.data) ++ ['\n'])
          ++ ['\x7d', ',', '\n', '\n'], none) := by
  have hdata : (a ++ ": " ++ fn ++ " " ++ ty).data
      = a.data ++ ':' :: ' ' :: (fn.data ++ ' ' :: ty.data) := by
    simp [String.data_append, List.append_assoc]
  obtain ⟨d, ds, hds⟩ : ∃ d ds, fn.data = d :: ds := by
    cases hfd : fn.data with
    | nil => exact absurd hfd hfn0
    | cons d ds => exact ⟨d, ds, rfl⟩
  have hXhead : ∀ c, (fn.data ++ ' ' :: ty.data).head? = some c →
      pyIsSpace c = false := by
    intro c hc
    rw [hds, List.cons_append, List.head?_cons, Option.some_inj] at hc
    exact (hfn1 c (hc ▸ hds ▸ List.mem_cons_self d ds)).1
  have hXlast : ∀ c, (fn.data ++ ' ' :: ty.data).getLast? = some c →
      pyIsSpace c = false := by
    intro c hc
    rw [List.getLast?_append_cons] at hc
    obtain ⟨e, es, hes⟩ : ∃ e es, ty.data = e :: es := by
      cases hfd : ty.data with
      | nil => exact absurd hfd hty0
      | cons e es => exact ⟨e, es, rfl⟩
    rw [hes, List.getLast?_cons_cons] at hc
    exact htyl c (hes ▸ hc)
  have hXstrip : pyStrip (fn.data ++ ' ' :: ty.data) = fn.data ++ ' ' :: ty.data :=
    pyStrip_eq_self hXhead hXlast
  have hXnocolon : ':' ∉ fn.data ++ ' ' :: ty.data := by
    intro hc
    rcases List.mem_append.mp hc with hc | hc
    · exact (hfn1 ':' hc).2.1 rfl
    · rcases List.mem_cons.mp hc with hc | hc
      · exact absurd hc (by decide)
      · exact htyc hc
  have hXnocomma : ',' ∉ fn.data ++ ' ' :: ty.data := by
    intro hc
    rcases List.mem_append.mp hc with hc | hc
    · exact (hfn1 ',' hc).2.2 rfl
    · rcases List.mem_cons.mp hc with hc | hc
      · exact absurd hc (by decide)
      · exact htyc2 hc
  have hfnspace : ' ' ∉ fn.data := fun hc => absurd (hfn1 ' ' hc).1 (by decide)
  have hsplit : splitCh ':' (a ++ ": " ++ fn ++ " " ++ ty).data
      = [a.data, ' ' :: (fn.data ++ ' ' :: ty.data)] := by
    rw [hdata, splitCh_append _ ha]
    rw [splitCh_of_not_mem (by
      intro hc
      rcases List.mem_cons.mp hc with hc | hc
      · exact absurd hc (by decide)
      · exact hXnocolon hc)]
  have hseg : pyStrip (' ' :: (fn.data ++ ' ' :: ty.data))
      = fn.data ++ ' ' :: ty.data := by
    rw [pyStrip_cons_space, hXstrip]
  have hpf : parseField (fn.data ++ ' ' :: ty.data) = some (fn.data, ty.data) := by
    unfold parseField
    rw [hXstrip, split1Ch_append ty.data hfnspace]
    show some (pyStrip fn.data, pyStrip ty.data) = some (fn.data, ty.data)
    rw [pyStrip_of_all_nonspace (fun c hc => (hfn1 c hc).1),
      pyStrip_eq_self htyh htyl]
  have hparse : parseLine (a ++ ": " ++ fn ++ " " ++ ty).data
      = some (pyStrip a.data, [(fn.data, ty.data)]) := by
    simp only [parseLine, hsplit, hseg, splitCh_of_not_mem hXnocomma, mapO, hpf]
  refine ⟨hparse, ?_⟩
  rw [processVariant_of_parse hparse]
  simp [variantLines, joinLines, List.append_assoc]

/-- Witness for C1 (corrected): the claim's own example — field spec
`arguments Vec<Box<Expr>>` — yields name `arguments` and the verbatim type
`Vec<Box<Expr>>`, emitted as `    arguments: Vec<Box<Expr>>,`. -/
theorem c1_amended_witness :
    parseLine ("Call" ++ ": " ++ "arguments" ++ " " ++ "Vec<Box<Expr>>").data
      = some (pyStrip "Call".data, [("arguments".data, "Vec<Box<Expr>>".data)])
    ∧ processVariant ("Call" ++ ": " ++ "arguments" ++ " " ++ "Vec<Box<Expr>>").data
      = (pyStrip "Call".data ++ [' ', '\x7b', '\n']
          ++ (fieldLine ("arguments".data, "Vec<Box<Expr>>".data) ++ ['\n'])
          ++ ['\x7d', ',', '\n', '\n'], none) :=
  c1_amended "Call" "arguments" "Vec<Box<Expr>>" (by decide) (by decide)
    (by decide) (by decide) (by decide) (by decide) (by decide) (by decide)

/-- Claim C6 counterexample. The schema line `"Pair: value Map<K, V x>"`
compiles without error, but parsing the emitted union declaration back
recovers two fields (`value : Map<K` and `V : x>`), not the single field
`value : Map<K, V x>` that was supplied under the spec's own top-level
grammar (`specParseLine`): the round trip does not recover the supplied
tokens when a type text contains a comma. -/
theorem c6_counterexample :
    (define_ast "E" ["Pair: value Map<K, V x>"]).2 = none
    ∧ recoverVariants (define_ast "E" ["Pair: value Map<K, V x>"]).1
        = some [("Pair".data,
            [("value".data, "Map<K".data), ("V".data, "x>".data)])]
    ∧ specParseLine "Pair: value Map<K, V x>".data
        = some ("Pair".data, [("value".data, "Map<K, V x>".data)]) := by
  refine ⟨by decide, by decide, by decide⟩

/-- Claim C6 (corrected). For every input on which the compile succeeds
(and whose base name and lines contain no newline, as lines do), parsing
the emitted union declaration back recovers exactly the tokens AS THE CODE
SPLITS THEM — `split(':')[0].strip()` as variant name and, for each chunk
of the every-comma split of `split(':')[1]`, the trimmed name/type pair —
in input order, with no sorting and no deduplication. The recovered tokens
are the code's tokenization of each line, not in general the tokens the
spec's top-level grammar reads off the same line (they differ, e.g., when
a type text contains a `,` or `:`, or when a field name contains non-space
whitespace such as a tab). -/
theorem c6_amended (base : String) (types : List String)
    (vs : List (List Char × List (List Char × List Char)))
    (h : mapO parseLine (types.map String.data) = some vs)
    (hbase : '\n' ∉ base.data)
    (hlines : ∀ t ∈ types, '\n' ∉ t.data) :
    recoverVariants (define_ast base types).1 = some vs := by
  have hnofn : ∀ v ∈ vs, ∀ f ∈ v.2, ':' ∉ f.1 := by
    intro v hv f hf hc
    rcases mapO_mem h hv with ⟨t, ht, hpt⟩
    exact (((parseLine_tokens hpt).2 f hf).1 ':' hc).2 rfl
  have hnl : ∀ v ∈ vs, '\n' ∉ v.1 ∧ ∀ f ∈ v.2, '\n' ∉ f.1 ∧ '\n' ∉ f.2 := by
    intro v hv
    rcases mapO_mem h hv with ⟨t, ht, hpt⟩
    rcases List.mem_map.mp ht with ⟨s, hs, rfl⟩
    have hsnl := hlines s hs
    rcases parseLine_tokens hpt with ⟨h1, h2⟩
    refine ⟨fun hc => hsnl (h1 _ hc), fun f hf => ⟨?_, ?_⟩⟩
    · exact fun hc => hsnl (((h2 f hf).1 _ hc).1)
    · exact fun hc => hsnl (((h2 f hf).2 _ hc).1)
  have hcore := @defineAstCore_of_mapO base.data (types.map String.data) vs h
  have hfst : (define_ast base types).1
      = String.mk (joinLines (("pub enum ".data ++ base.data ++ [' ', '\x7b']) ::
          ((vs.map variantLines).flatten ++ [['\x7d'], []]))
          ++ visitorText base.data) := by
    simp only [define_ast, hcore]
  rw [hfst]
  unfold recoverVariants
  rw [data_mk]
  have hlf : ∀ l ∈ (("pub enum ".data ++ base.data ++ [' ', '\x7b']) ::
      ((vs.map variantLines).flatten ++ [['\x7d'], []])), '\n' ∉ l := by
    intro l hl
    rcases List.mem_cons.mp hl with rfl | hl
    · intro hc
      rcases List.mem_append.mp hc with hc | hc
      · rcases List.mem_append.mp hc with hc | hc
        · exact absurd hc (by decide)
        · exact hbase hc
      · rcases List.mem_cons.mp hc with hc | hc
        · exact absurd hc (by decide)
        · rcases List.mem_cons.mp hc with hc | hc
          · exact absurd hc (by decide)
          · simp at hc
    · rcases List.mem_append.mp hl with hl | hl
      · rcases List.mem_flatten.mp hl with ⟨w, hwmem, hlw⟩
        rcases List.mem_map.mp hwmem with ⟨v, hvmem, rfl⟩
        exact variantLines_newline_free (hnl v hvmem).1 (hnl v hvmem).2 l hlw
      · rcases List.mem_cons.mp hl with rfl | hl
        · decide
        · rcases List.mem_cons.mp hl with rfl | hl
          · decide
          · simp at hl
  rw [splitNL_joinLines_append _ hlf]
  show recLoop (((vs.map variantLines).flatten ++ [['\x7d'], []])
        ++ splitNL (visitorText base.data)).length
      (((vs.map variantLines).flatten ++ [['\x7d'], []])
        ++ splitNL (visitorText base.data)) = some vs
  have hrest : ((vs.map variantLines).flatten ++ [['\x7d'], []])
        ++ splitNL (visitorText base.data)
      = (vs.map variantLines).flatten
        ++ ['\x7d'] :: ([] :: splitNL (visitorText base.data)) := by
    simp [List.append_assoc]
  rw [hrest]
  have hfuel : vs.length < ((vs.map variantLines).flatten
      ++ ['\x7d'] :: ([] :: splitNL (visitorText base.data))).length := by
    rw [List.length_append, List.length_cons]
    have := le_length_flatten vs
    omega
  exact recLoop_emit _ hfuel hnofn

/-- Witness for C6 (corrected): a concrete two-variant schema whose emitted
union declaration parses back to exactly the code's tokens, in order. -/
theorem c6_amended_witness :
    recoverVariants (define_ast "Expr"
        ["Unary: operator Token, right Box<Expr>", "Variable: name Token"]).1
      = some [("Unary".data,
                [("operator".data, "Token".data), ("right".data, "Box<Expr>".data)]),
              ("Variable".data, [("name".data, "Token".data)])] :=
  c6_amended "Expr" ["Unary: operator Token, right Box<Expr>", "Variable: name Token"]
    [("Unary".data,
       [("operator".data, "Token".data), ("right".data, "Box<Expr>".data)]),
     ("Variable".data, [("name".data, "Token".data)])]
    (by decide) (by decide) (by decide)
